import Mathlib

/-!
Verification of the Mentra-Community/wordle core against its specification.

This file gives a shallow embedding of the two core modules of the repository:

* the Wordle game engine of src/index.ts (the variant with duplicate-guess
  rejection: WordleManager.createGame, WordleManager.submitGuess and
  WordleManager.processInput), and
* the monochrome raster module (createCanvas, drawPixel, drawLine, drawRect,
  create1BitBMP).

Words and raw input text are modelled as lists of characters.  Individual
grid-cell letters are modelled as strings, exactly as in the TypeScript
source, where a word is turned into one-character strings by split and the
consumed target letters are overwritten with the sentinel string.  Buffers
are lists of byte values (natural numbers below 256).

The word dictionary (isValidWord) and the random target word (getRandomWord)
live in the module words.ts, which is not among the sources; both are
therefore passed to the embedded functions as parameters.
-/

namespace Wordle

/-- Phase of a game, from the GameState enum of src/index.ts. -/
inductive GameState where
  | PLAYING
  | WON
  | LOST
  | WAITING_RESTART
  deriving DecidableEq

/-- State of one scored letter, from the LetterState enum of src/index.ts. -/
inductive LetterState where
  | EMPTY
  | CORRECT
  | PRESENT
  | ABSENT
  deriving DecidableEq

/-- One cell of a guess row, from the GuessedLetter interface: the letter is a
string, empty for cells no guess has filled yet. -/
structure GuessedLetter where
  letter : String
  state : LetterState
  deriving DecidableEq

/-- The keyboardState map of a game.  A JavaScript Map is an insertion-ordered
association list; set updates an existing key in place or appends a new one. -/
abbrev Keyboard := List (String × LetterState)

/-- Lookup in the keyboard map (Map.get). -/
def kbGet (kb : Keyboard) (k : String) : Option LetterState :=
  (kb.find? (fun p => p.1 == k)).map Prod.snd

/-- Key-membership in the keyboard map (Map.has). -/
def kbHas (kb : Keyboard) (k : String) : Bool :=
  (kbGet kb k).isSome

/-- Insertion or in-place update in the keyboard map (Map.set). -/
def kbSet : Keyboard → String → LetterState → Keyboard
  | [], k, v => [(k, v)]
  | p :: ps, k, v => if p.1 == k then (k, v) :: ps else p :: kbSet ps k v

/-- The WordleGame interface of src/index.ts. -/
structure WordleGame where
  targetWord : List Char
  guesses : List (List GuessedLetter)
  currentGuess : List Char
  currentRow : Nat
  state : GameState
  maxGuesses : Nat
  keyboardState : Keyboard
  previousGuesses : List (List Char)
  deriving DecidableEq

/-- WordleManager.createGame.  The fresh random target produced by
getRandomWord (from the absent module words.ts) is passed as a parameter.
The two initialisation loops fill maxGuesses rows of five empty cells. -/
def createGame (freshTarget : List Char) : WordleGame :=
  { targetWord := freshTarget
    guesses :=
      (List.range 6).map (fun _ =>
        (List.range 5).map (fun _ => { letter := "", state := LetterState.EMPTY }))
    currentGuess := []
    currentRow := 0
    state := GameState.PLAYING
    maxGuesses := 6
    keyboardState := []
    previousGuesses := [] }

/-- First scoring pass of submitGuess: walk the guess letters and the target
letters position by position; a positional match becomes CORRECT, the matched
target letter is overwritten with the sentinel, and the keyboard records a
CORRECT for that letter; every other position starts out ABSENT.  Returns the
scored row, the remaining target letters and the updated keyboard. -/
def firstPass : List String → List String → Keyboard →
    List GuessedLetter × List String × Keyboard
  | g :: gs, t :: ts, kb =>
    if g = t then
      let rest := firstPass gs ts (kbSet kb g LetterState.CORRECT)
      ({ letter := g, state := LetterState.CORRECT } :: rest.1, "*" :: rest.2.1, rest.2.2)
    else
      let rest := firstPass gs ts kb
      ({ letter := g, state := LetterState.ABSENT } :: rest.1, t :: rest.2.1, rest.2.2)
  | _, _, kb => ([], [], kb)

/-- Second scoring pass of submitGuess: scan the row left to right; a position
still ABSENT whose letter occurs among the unconsumed target letters becomes
PRESENT and consumes the first such occurrence (indexOf, then overwrite with
the sentinel); the keyboard records PRESENT unless the letter is already
CORRECT, and records ABSENT only when the letter is not yet in the map. -/
def secondPass : List GuessedLetter → List String → Keyboard →
    List GuessedLetter × Keyboard
  | [], _, kb => ([], kb)
  | r :: rs, ts, kb =>
    if r.state = LetterState.ABSENT then
      match ts.findIdx? (fun t => t == r.letter) with
      | some idx =>
        let kb1 := if kbGet kb r.letter = some LetterState.CORRECT then kb
                   else kbSet kb r.letter LetterState.PRESENT
        let rest := secondPass rs (ts.set idx "*") kb1
        ({ letter := r.letter, state := LetterState.PRESENT } :: rest.1, rest.2)
      | none =>
        let kb1 := if kbHas kb r.letter then kb
                   else kbSet kb r.letter LetterState.ABSENT
        let rest := secondPass rs ts kb1
        ({ letter := r.letter, state := LetterState.ABSENT } :: rest.1, rest.2)
    else
      let rest := secondPass rs ts kb
      (r :: rest.1, rest.2)

/-- WordleManager.submitGuess: record the guess in previousGuesses, score the
row with the two passes, store the row at the current row index, advance the
row cursor, and move to WAITING_RESTART on a win (transiently WON) or when
the row cursor reaches maxGuesses (transiently LOST). -/
def submitGuess (game : WordleGame) (guess : List Char) : WordleGame :=
  let targetLetters := game.targetWord.map String.singleton
  let guessLetters := guess.map String.singleton
  let p1 := firstPass guessLetters targetLetters game.keyboardState
  let p2 := secondPass p1.1 p1.2.1 p1.2.2
  { game with
    previousGuesses :=
      if game.previousGuesses.contains guess then game.previousGuesses
      else game.previousGuesses ++ [guess]
    keyboardState := p2.2
    guesses := game.guesses.set game.currentRow p2.1
    currentRow := game.currentRow + 1
    state :=
      if guess = game.targetWord then GameState.WAITING_RESTART
      else if game.currentRow + 1 ≥ game.maxGuesses then GameState.WAITING_RESTART
      else game.state }

/-- The scored row the two passes of submitGuess produce for a guess against
a target, with the keyboard bookkeeping projected away. -/
def scoreGuess (guess target : List Char) : List GuessedLetter :=
  let p1 := firstPass (guess.map String.singleton) (target.map String.singleton) []
  (secondPass p1.1 p1.2.1 p1.2.2).1

/-- Whitespace recognised by the input trim. -/
def isSpaceCh (c : Char) : Bool :=
  c = ' ' || c = '\t' || c = '\n' || c = '\r'

/-- Trim of the raw input (String.prototype.trim). -/
def trimChars (l : List Char) : List Char :=
  ((l.dropWhile isSpaceCh).reverse.dropWhile isSpaceCh).reverse

/-- Input normalisation of processInput: trim, then uppercase. -/
def normalizeInput (l : List Char) : List Char :=
  (trimChars l).map Char.toUpper

/-- Split on single spaces (String.prototype.split with a one-space
separator): consecutive separators yield empty tokens, as in JavaScript. -/
def splitSp : List Char → List (List Char)
  | [] => [[]]
  | c :: cs =>
    if c = ' ' then [] :: splitSp cs
    else
      match splitSp cs with
      | [] => [[c]]
      | t :: ts => (c :: t) :: ts

/-- Trailing punctuation stripped from each token. -/
def isTrailPunct (c : Char) : Bool :=
  c = '.' || c = ',' || c = '!' || c = '?'

/-- Removal of the trailing punctuation run from one token. -/
def cleanWord (w : List Char) : List Char :=
  (w.reverse.dropWhile isTrailPunct).reverse

/-- Uppercase Latin letter test, one character of the character class. -/
def isUpperAlpha (c : Char) : Bool :=
  'A' ≤ c && c ≤ 'Z'

/-- Guess-candidate test of processInput: a cleaned token of exactly five
uppercase letters. -/
def isCandidate (w : List Char) : Bool :=
  w.length == 5 && w.all isUpperAlpha

/-- The candidate-selection loop of processInput: every candidate overwrites
the previous one, so the last candidate in left-to-right order wins. -/
def findFive (words : List (List Char)) : Option (List Char) :=
  words.foldl
    (fun acc word =>
      let cw := cleanWord word
      if isCandidate cw then some cw else acc)
    none

/-- Substring test (String.prototype.includes), first list starts the second. -/
def matchesFront : List Char → List Char → Bool
  | [], _ => true
  | _ :: _, [] => false
  | a :: as, b :: bs => a = b && matchesFront as bs

/-- Substring test (String.prototype.includes): the needle occurs somewhere
in the haystack. -/
def hasSub : List Char → List Char → Bool
  | [], needle => needle.isEmpty
  | h :: t, needle => matchesFront needle (h :: t) || hasSub t needle

/-- The restart phrases scanned for while waiting for a restart. -/
def playAgainChars : List Char := ['P', 'L', 'A', 'Y', ' ', 'A', 'G', 'A', 'I', 'N']

/-- The second restart phrase. -/
def newGameChars : List Char := ['N', 'E', 'W', ' ', 'G', 'A', 'M', 'E']

/-- WordleManager.processInput for an existing session (the manager looks the
session up by user id, creating one when absent; the claims all concern an
existing session, which is threaded here explicitly).  The dictionary test
isValidWord and the fresh target a restart would draw are parameters, since
words.ts is not among the sources.  Returns the state-changed flag and the
resulting session. -/
def processInput (isValidWord : List Char → Bool) (freshTarget : List Char)
    (game : WordleGame) (input : List Char) : Bool × WordleGame :=
  let normalizedInput := normalizeInput input
  if game.state = GameState.WAITING_RESTART then
    if hasSub normalizedInput playAgainChars || hasSub normalizedInput newGameChars then
      (true, createGame freshTarget)
    else
      (false, game)
  else if game.state ≠ GameState.PLAYING then
    (false, game)
  else
    match findFive (splitSp normalizedInput) with
    | some w =>
      if isValidWord w then
        if game.previousGuesses.contains w then (false, game)
        else (true, submitGuess game w)
      else (false, game)
    | none => (false, game)

/-- createCanvas of bitmap.ts: a height-by-width grid of false. -/
def createCanvas (width height : Nat) : List (List Bool) :=
  (List.range height).map (fun _ => List.replicate width false)

/-- drawPixel of bitmap.ts: bounds-checked write.  The y bound is the number
of rows; the x bound is the length of the first row.  Out-of-range
coordinates (including negative ones) leave the canvas untouched. -/
def drawPixel (canvas : List (List Bool)) (x y : Int) (color : Bool) :
    List (List Bool) :=
  if 0 ≤ y ∧ y < (canvas.length : Int) ∧ 0 ≤ x ∧ x < ((canvas.headD []).length : Int) then
    canvas.set y.toNat ((canvas.getD y.toNat []).set x.toNat color)
  else canvas

/-- Cell read-back used by the theorems below (row y, column x, false when the
indices run off the grid). -/
def getCell (canvas : List (List Bool)) (x y : Nat) : Bool :=
  (canvas.getD y []).getD x false

/-- Body of the Bresenham loop of drawLine, with an explicit fuel counter.
Each iteration plots the current point, stops at the second endpoint, and
otherwise advances x and, independently, y according to the doubled error
term, exactly as the while loop of bitmap.ts does.  drawLine always supplies
enough fuel for the loop to reach the second endpoint (the reach lemma below
proves dx + dy + 1 iterations suffice), so the fuel-exhausted branch is
unreachable from drawLine. -/
def drawLineAux (color : Bool) (x2 y2 dx dy sx sy : Int) :
    Nat → List (List Bool) → Int → Int → Int → List (List Bool)
  | 0, c, _, _, _ => c
  | fuel + 1, c, x, y, err =>
    let c1 := drawPixel c x y color
    if x = x2 ∧ y = y2 then c1
    else
      let e2 := 2 * err
      let err1 := if e2 > -dy then err - dy else err
      let xn := if e2 > -dy then x + sx else x
      let err2 := if e2 < dx then err1 + dx else err1
      let yn := if e2 < dx then y + sy else y
      drawLineAux color x2 y2 dx dy sx sy fuel c1 xn yn err2

/-- drawLine of bitmap.ts: Bresenham between the two endpoints. -/
def drawLine (canvas : List (List Bool)) (x1 y1 x2 y2 : Int) (color : Bool) :
    List (List Bool) :=
  let dx := |x2 - x1|
  let dy := |y2 - y1|
  let sx : Int := if x1 < x2 then 1 else -1
  let sy : Int := if y1 < y2 then 1 else -1
  drawLineAux color x2 y2 dx dy sx sy (dx + dy + 1).toNat canvas x1 y1 (dx - dy)

/-- drawRect of bitmap.ts: filled mode writes every pixel of the box, outlined
mode writes the top and bottom edges (one loop over the width) and the left
and right edges (one loop over the height).  A non-positive extent makes the
corresponding loop run zero times, as the JavaScript for loop does. -/
def drawRect (canvas : List (List Bool)) (x y width height : Int)
    (filled color : Bool) : List (List Bool) :=
  if filled then
    (List.range height.toNat).foldl
      (fun acc (dy : Nat) =>
        (List.range width.toNat).foldl
          (fun acc2 (dx : Nat) => drawPixel acc2 (x + (dx : Int)) (y + (dy : Int)) color)
          acc)
      canvas
  else
    let c1 :=
      (List.range width.toNat).foldl
        (fun acc (dx : Nat) =>
          drawPixel (drawPixel acc (x + (dx : Int)) y color)
            (x + (dx : Int)) (y + height - 1) color)
        canvas
    (List.range height.toNat).foldl
      (fun acc (dy : Nat) =>
        drawPixel (drawPixel acc x (y + (dy : Int)) color)
          (x + width - 1) (y + (dy : Int)) color)
      c1

/-- Little-endian bytes of a 16-bit field (buffer.writeUInt16LE). -/
def u16le (n : Nat) : List Nat :=
  [n % 256, n / 256 % 256]

/-- Little-endian bytes of a 32-bit field (buffer.writeUInt32LE; the signed
variant writes the same four bytes for the nonnegative values used here). -/
def u32le (n : Nat) : List Nat :=
  [n % 256, n / 256 % 256, n / 65536 % 256, n / 16777216 % 256]

/-- The per-row bit-packing loop of create1BitBMP: rowData accumulates bits
from the most significant position down, a full byte is emitted every eight
pixels, and a final partial byte is emitted when the width is not a multiple
of eight. -/
def packRowAux : List Bool → Nat → Nat → List Nat
  | [], rowData, bitCount => if 0 < bitCount then [rowData] else []
  | b :: bs, rowData, bitCount =>
    let rowData1 := if b then rowData ||| (1 <<< (7 - bitCount)) else rowData
    if bitCount + 1 == 8 then rowData1 :: packRowAux bs 0 0
    else packRowAux bs rowData1 (bitCount + 1)

/-- The bytes create1BitBMP emits for one canvas row, before padding. -/
def packRow (row : List Bool) : List Nat :=
  packRowAux row 0 0

/-- Unpadded byte length of one pixel row (Math.ceil(width / 8)). -/
def rowSizeOf (width : Nat) : Nat :=
  (width + 7) / 8

/-- Padded byte length of one pixel row, a multiple of four. -/
def paddedRowSizeOf (width : Nat) : Nat :=
  ((rowSizeOf width + 3) / 4) * 4

/-- Concatenation of the per-row byte blocks. -/
def catRows : List (List Nat) → List Nat
  | [] => []
  | r :: rs => r ++ catRows rs

/-- The pixel-data section of create1BitBMP: canvas rows written bottom-up
(row height - 1 first), each packed row followed by zero padding up to the
padded row size. -/
def pixelBytes (width height : Nat) (canvas : List (List Bool)) : List Nat :=
  catRows
    (((List.range height).reverse).map
      (fun y =>
        packRow (canvas.getD y []) ++
          List.replicate (paddedRowSizeOf width - rowSizeOf width) 0))

/-- The 14-byte file header of create1BitBMP: signature, file size, reserved
word, pixel-data offset (62). -/
def fileHeaderBytes (fileSize : Nat) : List Nat :=
  [66, 77] ++ u32le fileSize ++ u32le 0 ++ u32le 62

/-- The 40-byte info header of create1BitBMP: header size, width, height, one
plane, one bit per pixel, no compression, image size, resolutions, two
colours used and important. -/
def infoHeaderBytes (width height : Nat) : List Nat :=
  u32le 40 ++ u32le width ++ u32le height ++ u16le 1 ++ u16le 1 ++
    u32le 0 ++ u32le (paddedRowSizeOf width * height) ++ u32le 0 ++ u32le 0 ++
    u32le 2 ++ u32le 2

/-- The two-entry colour table: black then white, each B, G, R, reserved. -/
def colorTableBytes : List Nat :=
  [0, 0, 0, 0] ++ [255, 255, 255, 0]

/-- The 62 header bytes before the pixel data. -/
def bmpHeader (width height : Nat) : List Nat :=
  fileHeaderBytes (62 + paddedRowSizeOf width * height) ++
    (infoHeaderBytes width height ++ colorTableBytes)

/-- create1BitBMP of bitmap.ts: 14-byte file header, 40-byte info header,
8-byte two-colour palette, then the bottom-up padded pixel data.  The writes
of the source fill the buffer contiguously from offset 0, so the buffer is
the concatenation of the written fields. -/
def create1BitBMP (width height : Nat) (canvas : List (List Bool)) : List Nat :=
  bmpHeader width height ++ pixelBytes width height canvas

/-- The guess word used in the scripted game of the spec. -/
def slateChars : List Char := ['S', 'L', 'A', 'T', 'E']

/-- The target word used in the scripted game of the spec. -/
def craneChars : List Char := ['C', 'R', 'A', 'N', 'E']

/-- In the PLAYING phase, processInput reduces to candidate selection followed
by the dictionary and duplicate checks. -/
lemma processInput_playing_eq (isValidWord : List Char → Bool) (freshTarget : List Char)
    (game : WordleGame) (input : List Char) (h : game.state = GameState.PLAYING) :
    processInput isValidWord freshTarget game input =
      match findFive (splitSp (normalizeInput input)) with
      | some w =>
        if isValidWord w then
          if game.previousGuesses.contains w then (false, game)
          else (true, submitGuess game w)
        else (false, game)
      | none => (false, game) := by
  unfold processInput
  rw [h]
  simp

/-- The nonempty list obtained by consing matches on its last element. -/
lemma getLast?_cons_elim (a : α) (l : List α) :
    (a :: l).getLast? =
      match l.getLast? with
      | some w => some w
      | none => some a := by
  cases l with
  | nil => rfl
  | cons b l =>
    rw [List.getLast?_cons_cons]
    cases h : (b :: l).getLast? with
    | none => simp at h
    | some w => rfl

/-- The candidate-selection fold keeps the last candidate: with any starting
accumulator it returns the last cleaned candidate when one exists, and the
accumulator otherwise. -/
lemma foldl_lastWins (ws : List (List Char)) (acc : Option (List Char)) :
    ws.foldl
        (fun a word =>
          let cw := cleanWord word
          if isCandidate cw then some cw else a)
        acc =
      match ((ws.map cleanWord).filter isCandidate).getLast? with
      | some w => some w
      | none => acc := by
  induction ws generalizing acc with
  | nil => rfl
  | cons w ws ih =>
    simp only [List.foldl_cons, List.map_cons, List.filter_cons]
    by_cases hc : isCandidate (cleanWord w)
    · simp only [hc, if_pos]
      rw [ih, getLast?_cons_elim]
      cases ((ws.map cleanWord).filter isCandidate).getLast? <;> rfl
    · simp only [hc, if_neg, Bool.false_eq_true, not_false_eq_true, if_false]
      rw [ih]

/-- findFive returns the last cleaned candidate token. -/
lemma findFive_eq (ws : List (List Char)) :
    findFive ws = ((ws.map cleanWord).filter isCandidate).getLast? := by
  unfold findFive
  rw [foldl_lastWins]
  cases ((ws.map cleanWord).filter isCandidate).getLast? <;> rfl

/-- Claim C4: while the phase is Playing, the input is normalised (trim,
uppercase), split on single spaces, each token stripped of trailing
punctuation, the five-uppercase-letter tokens are the candidates, the LAST
candidate in left-to-right order is selected, and it is committed exactly
when it passes the dictionary check and is not a previously-submitted
guess. -/
theorem C4_last_candidate_selection (isValidWord : List Char → Bool)
    (freshTarget : List Char) (game : WordleGame) (input : List Char)
    (h : game.state = GameState.PLAYING) :
    processInput isValidWord freshTarget game input =
      match (((splitSp (normalizeInput input)).map cleanWord).filter isCandidate).getLast? with
      | some w =>
        if isValidWord w then
          if game.previousGuesses.contains w then (false, game)
          else (true, submitGuess game w)
        else (false, game)
      | none => (false, game) := by
  rw [processInput_playing_eq _ _ _ _ h, findFive_eq]

/-- Witness for C4, on a transcript whose last five-letter token is SLATE. -/
theorem C4_last_candidate_selection_witness :
    processInput (fun _ => false) []
        (createGame craneChars)
        ['c', 'r', 'a', 'n', 'e', ' ', 'o', 'r', ' ', 's', 'l', 'a', 't', 'e', '.'] =
      match (((splitSp (normalizeInput
          ['c', 'r', 'a', 'n', 'e', ' ', 'o', 'r', ' ', 's', 'l', 'a', 't', 'e', '.'])).map
            cleanWord).filter isCandidate).getLast? with
      | some w =>
        if (fun (_ : List Char) => false) w then
          if (createGame craneChars).previousGuesses.contains w then
            (false, createGame craneChars)
          else (true, submitGuess (createGame craneChars) w)
        else (false, createGame craneChars)
      | none => (false, createGame craneChars) :=
  C4_last_candidate_selection (fun _ => false) [] (createGame craneChars)
    ['c', 'r', 'a', 'n', 'e', ' ', 'o', 'r', ' ', 's', 'l', 'a', 't', 'e', '.'] rfl

/-- Claim C7: in the WaitingRestart phase, an input whose normalisation
contains PLAY AGAIN or NEW GAME as a substring replaces the session with a
brand-new one (fresh target, six rows of empty cells, row cursor zero, phase
Playing, empty keyboard hints, empty previously-guessed set) and reports a
state change; any other input reports no change and leaves the session
untouched. -/
theorem C7_restart_phrase (isValidWord : List Char → Bool) (freshTarget : List Char)
    (game : WordleGame) (input : List Char)
    (h : game.state = GameState.WAITING_RESTART) :
    ((hasSub (normalizeInput input) playAgainChars ||
        hasSub (normalizeInput input) newGameChars) = true →
      processInput isValidWord freshTarget game input = (true, createGame freshTarget)) ∧
    ((hasSub (normalizeInput input) playAgainChars ||
        hasSub (normalizeInput input) newGameChars) = false →
      processInput isValidWord freshTarget game input = (false, game)) ∧
    (createGame freshTarget).targetWord = freshTarget ∧
    (createGame freshTarget).guesses =
      List.replicate 6 (List.replicate 5 { letter := "", state := LetterState.EMPTY }) ∧
    (createGame freshTarget).currentRow = 0 ∧
    (createGame freshTarget).state = GameState.PLAYING ∧
    (createGame freshTarget).keyboardState = [] ∧
    (createGame freshTarget).previousGuesses = [] := by
  refine ⟨?_, ?_, rfl, rfl, rfl, rfl, rfl, rfl⟩
  · intro hc
    unfold processInput
    rw [h]
    simp [hc]
  · intro hc
    unfold processInput
    rw [h]
    simp [hc]

/-- Witness for C7: a session waiting for a restart, told to start a new
game. -/
theorem C7_restart_phrase_witness :
    processInput (fun _ => false) slateChars
        { createGame craneChars with state := GameState.WAITING_RESTART }
        ['n', 'e', 'w', ' ', 'g', 'a', 'm', 'e'] =
      (true, createGame slateChars) ∧
    (createGame slateChars).state = GameState.PLAYING :=
  ⟨(C7_restart_phrase (fun _ => false) slateChars
      { createGame craneChars with state := GameState.WAITING_RESTART }
      ['n', 'e', 'w', ' ', 'g', 'a', 'm', 'e'] rfl).1 (by decide),
   rfl⟩

/-- Claim C6: in the Playing phase, when the selected candidate is already in
the previously-guessed set, processInput reports no change and returns the
session exactly as it was, and repeating the same input stays
side-effect-free. -/
theorem C6_duplicate_rejection (isValidWord : List Char → Bool)
    (freshTarget : List Char) (game : WordleGame) (input : List Char)
    (w : List Char)
    (h : game.state = GameState.PLAYING)
    (hsel : findFive (splitSp (normalizeInput input)) = some w)
    (hdup : game.previousGuesses.contains w = true) :
    processInput isValidWord freshTarget game input = (false, game) ∧
    processInput isValidWord freshTarget
        (processInput isValidWord freshTarget game input).2 input = (false, game) := by
  have h1 : processInput isValidWord freshTarget game input = (false, game) := by
    rw [processInput_playing_eq _ _ _ _ h, hsel]
    have hdup' : w ∈ game.previousGuesses := by simpa using hdup
    by_cases hv : isValidWord w
    · simp [hv, hdup']
    · simp [hv]
  refine ⟨h1, ?_⟩
  rw [h1]
  exact h1

/-- Witness for C6: SLATE guessed again after it was recorded. -/
theorem C6_duplicate_rejection_witness :
    processInput (fun _ => true) []
        { createGame craneChars with previousGuesses := [slateChars] } slateChars =
      (false, { createGame craneChars with previousGuesses := [slateChars] }) :=
  (C6_duplicate_rejection (fun _ => true) []
      { createGame craneChars with previousGuesses := [slateChars] } slateChars
      slateChars rfl (by decide) (by decide)).1

/-- Claim C5: from the externally reachable phases (Playing, WaitingRestart)
processInput can only lead to Playing or WaitingRestart (the transient WON
and LOST assignments of the source are overwritten before the call returns),
and a committed guess moves the phase to WaitingRestart exactly when it
matches the target or fills the sixth row, and otherwise leaves it
Playing. -/
theorem C5_phase_invariant (isValidWord : List Char → Bool) (freshTarget : List Char)
    (game : WordleGame) (input : List Char) (guess : List Char)
    (hphase : game.state = GameState.PLAYING ∨ game.state = GameState.WAITING_RESTART)
    (hmax : game.maxGuesses = 6) :
    ((processInput isValidWord freshTarget game input).2.state = GameState.PLAYING ∨
      (processInput isValidWord freshTarget game input).2.state = GameState.WAITING_RESTART) ∧
    (game.state = GameState.PLAYING →
      ((submitGuess game guess).state = GameState.WAITING_RESTART ↔
        (guess = game.targetWord ∨ game.currentRow + 1 ≥ 6))) ∧
    (game.state = GameState.PLAYING →
      ¬(guess = game.targetWord ∨ game.currentRow + 1 ≥ 6) →
      (submitGuess game guess).state = GameState.PLAYING) := by
  have hsub : ∀ g : List Char,
      (submitGuess game g).state =
        if g = game.targetWord then GameState.WAITING_RESTART
        else if game.currentRow + 1 ≥ game.maxGuesses then GameState.WAITING_RESTART
        else game.state := by
    intro g
    rfl
  refine ⟨?_, ?_, ?_⟩
  · rcases hphase with hp | hw
    · rw [processInput_playing_eq _ _ _ _ hp]
      cases hff : findFive (splitSp (normalizeInput input)) with
      | none => exact Or.inl hp
      | some w =>
        by_cases hv : isValidWord w
        · by_cases hd : game.previousGuesses.contains w
          · simp only [hv, if_pos, hd]
            exact Or.inl hp
          · simp only [hv, if_pos, hd, Bool.false_eq_true, if_neg, not_false_eq_true]
            rw [hsub w]
            split_ifs with h1 h2
            · exact Or.inr rfl
            · exact Or.inr rfl
            · exact Or.inl hp
        · simp only [hv, Bool.false_eq_true, if_neg, not_false_eq_true]
          exact Or.inl hp
    · unfold processInput
      rw [hw]
      by_cases hc : (hasSub (normalizeInput input) playAgainChars ||
          hasSub (normalizeInput input) newGameChars) = true
      · simp [hc]
        exact Or.inl rfl
      · simp only [Bool.not_eq_true] at hc
        simp [hc]
        exact Or.inr hw
  · intro hp
    rw [hsub guess, hmax]
    split_ifs with h1 h2
    · simp [h1]
    · simp [h2]
    · rw [hp]
      constructor
      · intro hst
        exact absurd hst (by decide)
      · intro hor
        rcases hor with h | h
        · exact absurd h h1
        · exact absurd h h2
  · intro hp hnot
    rw [hsub guess, hmax]
    rw [if_neg (fun h => hnot (Or.inl h)), if_neg (fun h => hnot (Or.inr h))]
    exact hp

/-- Witness for C5: one committed guess on a fresh CRANE game. -/
theorem C5_phase_invariant_witness :
    ((processInput (fun _ => true) [] (createGame craneChars) slateChars).2.state =
        GameState.PLAYING ∨
      (processInput (fun _ => true) [] (createGame craneChars) slateChars).2.state =
        GameState.WAITING_RESTART) ∧
    ((createGame craneChars).state = GameState.PLAYING →
      ((submitGuess (createGame craneChars) craneChars).state = GameState.WAITING_RESTART ↔
        (craneChars = (createGame craneChars).targetWord ∨
          (createGame craneChars).currentRow + 1 ≥ 6))) ∧
    ((createGame craneChars).state = GameState.PLAYING →
      ¬(craneChars = (createGame craneChars).targetWord ∨
          (createGame craneChars).currentRow + 1 ≥ 6) →
      (submitGuess (createGame craneChars) craneChars).state = GameState.PLAYING) :=
  C5_phase_invariant (fun _ => true) [] (createGame craneChars) slateChars craneChars
    (Or.inl rfl) rfl

/-- Counterexample to claim C2 as stated: with target CRANE, the guess SLATE
has its A in the third position of both words, so the committed row marks A
as Correct, not Present as the claim says. -/
theorem C2_claimed_row_counterexample :
    ¬ ((processInput (fun _ => true) craneChars (createGame craneChars)
          slateChars).2.guesses.getD 0 [] =
        [{ letter := "S", state := LetterState.ABSENT },
         { letter := "L", state := LetterState.ABSENT },
         { letter := "A", state := LetterState.PRESENT },
         { letter := "T", state := LetterState.ABSENT },
         { letter := "E", state := LetterState.CORRECT }]) := by
  decide

/-- Claim C2 as amended: for a Playing session with target CRANE, committing
SLATE reports a state change and scores S=Absent, L=Absent, A=Correct,
T=Absent, E=Correct (A sits at the same position in SLATE and CRANE), the
phase stays Playing, and committing CRANE afterwards reports a state change,
scores five Correct cells and moves the phase to WaitingRestart.  The
dictionary is a parameter, assumed to accept both words. -/
theorem C2_crane_slate_game (isValidWord : List Char → Bool) (freshTarget : List Char)
    (hv1 : isValidWord slateChars = true) (hv2 : isValidWord craneChars = true) :
    processInput isValidWord freshTarget (createGame craneChars) slateChars =
      (true, submitGuess (createGame craneChars) slateChars) ∧
    (submitGuess (createGame craneChars) slateChars).guesses.getD 0 [] =
      [{ letter := "S", state := LetterState.ABSENT },
       { letter := "L", state := LetterState.ABSENT },
       { letter := "A", state := LetterState.CORRECT },
       { letter := "T", state := LetterState.ABSENT },
       { letter := "E", state := LetterState.CORRECT }] ∧
    (submitGuess (createGame craneChars) slateChars).state = GameState.PLAYING ∧
    processInput isValidWord freshTarget
        (submitGuess (createGame craneChars) slateChars) craneChars =
      (true, submitGuess (submitGuess (createGame craneChars) slateChars) craneChars) ∧
    (submitGuess (submitGuess (createGame craneChars) slateChars)
        craneChars).guesses.getD 1 [] =
      [{ letter := "C", state := LetterState.CORRECT },
       { letter := "R", state := LetterState.CORRECT },
       { letter := "A", state := LetterState.CORRECT },
       { letter := "N", state := LetterState.CORRECT },
       { letter := "E", state := LetterState.CORRECT }] ∧
    (submitGuess (submitGuess (createGame craneChars) slateChars) craneChars).state =
      GameState.WAITING_RESTART := by
  have hfind1 : findFive (splitSp (normalizeInput slateChars)) = some slateChars := by
    decide
  have hfind2 : findFive (splitSp (normalizeInput craneChars)) = some craneChars := by
    decide
  have h1 : processInput isValidWord freshTarget (createGame craneChars) slateChars =
      (true, submitGuess (createGame craneChars) slateChars) := by
    rw [processInput_playing_eq _ _ _ _ rfl, hfind1]
    have hc1 : slateChars ∉ (createGame craneChars).previousGuesses := by
      decide
    simp [hv1, hc1]
  have h2 : processInput isValidWord freshTarget
      (submitGuess (createGame craneChars) slateChars) craneChars =
      (true, submitGuess (submitGuess (createGame craneChars) slateChars) craneChars) := by
    rw [processInput_playing_eq _ _ _ _ (by decide), hfind2]
    have hc2 : craneChars ∉ (submitGuess (createGame craneChars)
        slateChars).previousGuesses := by
      decide
    simp [hv2, hc2]
  exact ⟨h1, by decide, by decide, h2, by decide, by decide⟩

/-- Witness for the amended C2, with a dictionary accepting every word. -/
theorem C2_crane_slate_game_witness :
    processInput (fun _ => true) [] (createGame craneChars) slateChars =
      (true, submitGuess (createGame craneChars) slateChars) ∧
    (submitGuess (createGame craneChars) slateChars).guesses.getD 0 [] =
      [{ letter := "S", state := LetterState.ABSENT },
       { letter := "L", state := LetterState.ABSENT },
       { letter := "A", state := LetterState.CORRECT },
       { letter := "T", state := LetterState.ABSENT },
       { letter := "E", state := LetterState.CORRECT }] ∧
    (submitGuess (createGame craneChars) slateChars).state = GameState.PLAYING ∧
    processInput (fun _ => true) []
        (submitGuess (createGame craneChars) slateChars) craneChars =
      (true, submitGuess (submitGuess (createGame craneChars) slateChars) craneChars) ∧
    (submitGuess (submitGuess (createGame craneChars) slateChars)
        craneChars).guesses.getD 1 [] =
      [{ letter := "C", state := LetterState.CORRECT },
       { letter := "R", state := LetterState.CORRECT },
       { letter := "A", state := LetterState.CORRECT },
       { letter := "N", state := LetterState.CORRECT },
       { letter := "E", state := LetterState.CORRECT }] ∧
    (submitGuess (submitGuess (createGame craneChars) slateChars) craneChars).state =
      GameState.WAITING_RESTART :=
  C2_crane_slate_game (fun _ => true) [] (by decide) (by decide)

/-- Cells counted by the Correct-or-Present tally. -/
def scoreP (e : GuessedLetter) : Bool :=
  e.state == LetterState.CORRECT || e.state == LetterState.PRESENT

/-- How many cells of a row hold the letter s marked Correct or Present. -/
def cpCount (s : String) (r : List GuessedLetter) : Nat :=
  r.countP (fun e => e.letter == s && scoreP e)

/-- How many cells of a row hold the letter s marked Correct. -/
def correctCount (s : String) (r : List GuessedLetter) : Nat :=
  r.countP (fun e => e.letter == s && e.state == LetterState.CORRECT)

/-- How many cells of a row hold the letter s marked Present. -/
def presentCount (s : String) (r : List GuessedLetter) : Nat :=
  r.countP (fun e => e.letter == s && e.state == LetterState.PRESENT)

/-- The Correct-or-Present tally splits into the two separate tallies. -/
lemma cpCount_split (s : String) (r : List GuessedLetter) :
    cpCount s r = correctCount s r + presentCount s r := by
  unfold cpCount correctCount presentCount
  induction r with
  | nil => rfl
  | cons e r ih =>
    obtain ⟨el, est⟩ := e
    rw [List.countP_cons, List.countP_cons, List.countP_cons, ih]
    cases hl : (el == s) <;> cases est <;> simp [scoreP, hl] <;> omega

/-- The letters of the first-pass row are the guess letters. -/
lemma firstPass_letters : ∀ (gs ts : List String) (kb : Keyboard),
    gs.length = ts.length →
    (firstPass gs ts kb).1.map (fun e => e.letter) = gs
  | [], [], kb, _ => rfl
  | [], _ :: _, kb, h => by simp at h
  | _ :: _, [], kb, h => by simp at h
  | g :: gs, t :: ts, kb, h => by
    simp only [List.length_cons, Nat.add_right_cancel_iff] at h
    by_cases hg : g = t
    · simp only [firstPass, if_pos hg, List.map_cons]
      rw [firstPass_letters gs ts _ h]
    · simp only [firstPass, if_neg hg, List.map_cons]
      rw [firstPass_letters gs ts _ h]

/-- Every first-pass cell is Correct or Absent. -/
lemma firstPass_states : ∀ (gs ts : List String) (kb : Keyboard) (e : GuessedLetter),
    e ∈ (firstPass gs ts kb).1 →
    e.state = LetterState.CORRECT ∨ e.state = LetterState.ABSENT
  | [], ts, kb, e, h => by cases ts <;> simp [firstPass] at h
  | g :: gs, [], kb, e, h => by simp [firstPass] at h
  | g :: gs, t :: ts, kb, e, h => by
    by_cases hg : g = t
    · simp only [firstPass, if_pos hg, List.mem_cons] at h
      rcases h with rfl | h
      · exact Or.inl rfl
      · exact firstPass_states gs ts _ e h
    · simp only [firstPass, if_neg hg, List.mem_cons] at h
      rcases h with rfl | h
      · exact Or.inr rfl
      · exact firstPass_states gs ts _ e h

/-- A first-pass cell is Correct exactly at the positions where the guess
letter equals the target letter. -/
lemma firstPass_mask : ∀ (gs ts : List String) (kb : Keyboard),
    (firstPass gs ts kb).1.map (fun e => e.state == LetterState.CORRECT) =
      (gs.zip ts).map (fun p => p.1 == p.2)
  | [], ts, kb => by cases ts <;> rfl
  | g :: gs, [], kb => rfl
  | g :: gs, t :: ts, kb => by
    by_cases hg : g = t
    · simp only [firstPass, if_pos hg, List.map_cons, List.zip_cons_cons]
      rw [firstPass_mask gs ts _]
      simp [hg]
    · simp only [firstPass, if_neg hg, List.map_cons, List.zip_cons_cons]
      rw [firstPass_mask gs ts _]
      simp only [List.cons.injEq, and_true]
      simp [hg]

/-- String-count bookkeeping of the first pass: for every letter other than
the sentinel, the Correct cells and the surviving target letters together
account exactly for the occurrences in the target. -/
lemma firstPass_count (s : String) (hs : s ≠ "*") (gs : List String) :
    ∀ (ts : List String) (kb : Keyboard),
    gs.length = ts.length →
    correctCount s (firstPass gs ts kb).1 + (firstPass gs ts kb).2.1.count s =
      ts.count s := by
  have hstar : (("*" : String) == s) = false := by
    simpa using fun hc => hs hc.symm
  have hcc : (LetterState.CORRECT == LetterState.CORRECT) = true := rfl
  have hac : (LetterState.ABSENT == LetterState.CORRECT) = false := rfl
  induction gs with
  | nil =>
    intro ts kb h
    cases ts with
    | nil => rfl
    | cons t ts => simp at h
  | cons g gs ih =>
    intro ts kb h
    cases ts with
    | nil => simp at h
    | cons t ts =>
      simp only [List.length_cons, Nat.add_right_cancel_iff] at h
      by_cases hg : g = t
      · simp only [firstPass, if_pos hg]
        unfold correctCount
        rw [List.countP_cons, List.count_cons, List.count_cons, hstar, hcc]
        have ihs := ih ts (kbSet kb g LetterState.CORRECT) h
        unfold correctCount at ihs
        subst hg
        cases hgs : (g == s) <;> simp only [hgs, Bool.true_and, Bool.false_and] <;>
          simp <;> omega
      · simp only [firstPass, if_neg hg]
        unfold correctCount
        rw [List.countP_cons, List.count_cons, List.count_cons, hac]
        have ihs := ih ts kb h
        unfold correctCount at ihs
        simp only [Bool.and_false]
        cases hts : (t == s) <;> simp <;> omega

/-- The letters of a row survive the second pass unchanged. -/
lemma secondPass_letters : ∀ (rs : List GuessedLetter) (ts : List String) (kb : Keyboard),
    (secondPass rs ts kb).1.map (fun e => e.letter) = rs.map (fun e => e.letter)
  | [], ts, kb => rfl
  | r :: rs, ts, kb => by
    by_cases ha : r.state = LetterState.ABSENT
    · simp only [secondPass, if_pos ha]
      cases hf : ts.findIdx? (fun t => t == r.letter) with
      | some idx =>
        simp only [List.map_cons]
        rw [secondPass_letters rs _ _]
      | none =>
        simp only [List.map_cons]
        rw [secondPass_letters rs _ _]
    · simp only [secondPass, if_neg ha, List.map_cons]
      rw [secondPass_letters rs _ _]

/-- The Correct cells of a row survive the second pass unchanged. -/
lemma secondPass_mask : ∀ (rs : List GuessedLetter) (ts : List String) (kb : Keyboard),
    (secondPass rs ts kb).1.map (fun e => e.state == LetterState.CORRECT) =
      rs.map (fun e => e.state == LetterState.CORRECT)
  | [], ts, kb => rfl
  | r :: rs, ts, kb => by
    by_cases ha : r.state = LetterState.ABSENT
    · simp only [secondPass, if_pos ha]
      cases hf : ts.findIdx? (fun t => t == r.letter) with
      | some idx =>
        simp only [List.map_cons]
        rw [secondPass_mask rs _ _, ha]
        rfl
      | none =>
        simp only [List.map_cons]
        rw [secondPass_mask rs _ _, ha]
    · simp only [secondPass, if_neg ha, List.map_cons]
      rw [secondPass_mask rs _ _]

/-- The per-letter Correct tally survives the second pass unchanged. -/
lemma secondPass_correctCount (s : String) (rs : List GuessedLetter) :
    ∀ (ts : List String) (kb : Keyboard),
    correctCount s (secondPass rs ts kb).1 = correctCount s rs := by
  have hpc : (LetterState.PRESENT == LetterState.CORRECT) = false := rfl
  have hac : (LetterState.ABSENT == LetterState.CORRECT) = false := rfl
  induction rs with
  | nil => intro ts kb; rfl
  | cons r rs ih =>
    intro ts kb
    unfold correctCount
    by_cases ha : r.state = LetterState.ABSENT
    · simp only [secondPass, if_pos ha]
      cases hf : ts.findIdx? (fun t => t == r.letter) with
      | some idx =>
        rw [List.countP_cons, List.countP_cons]
        have ihs := ih (ts.set idx "*")
          (if kbGet kb r.letter = some LetterState.CORRECT then kb
           else kbSet kb r.letter LetterState.PRESENT)
        unfold correctCount at ihs
        rw [ihs, ha, hpc, hac]
      | none =>
        rw [List.countP_cons, List.countP_cons]
        have ihs := ih ts
          (if kbHas kb r.letter then kb else kbSet kb r.letter LetterState.ABSENT)
        unfold correctCount at ihs
        rw [ihs, ha]
    · simp only [secondPass, if_neg ha]
      rw [List.countP_cons, List.countP_cons]
      have ihs := ih ts kb
      unfold correctCount at ihs
      rw [ihs]

/-- After the second pass every cell is Correct, Present or Absent. -/
lemma secondPass_states : ∀ (rs : List GuessedLetter) (ts : List String) (kb : Keyboard),
    (∀ x ∈ rs, x.state = LetterState.CORRECT ∨ x.state = LetterState.ABSENT) →
    ∀ e ∈ (secondPass rs ts kb).1,
      e.state = LetterState.CORRECT ∨ e.state = LetterState.PRESENT ∨
        e.state = LetterState.ABSENT
  | [], ts, kb, _, e, h => by simp [secondPass] at h
  | r :: rs, ts, kb, hrs, e, h => by
    have hrs' : ∀ x ∈ rs, x.state = LetterState.CORRECT ∨ x.state = LetterState.ABSENT :=
      fun x hx => hrs x (List.mem_cons_of_mem _ hx)
    by_cases ha : r.state = LetterState.ABSENT
    · simp only [secondPass, if_pos ha] at h
      cases hf : ts.findIdx? (fun t => t == r.letter) with
      | some idx =>
        rw [hf] at h
        simp only [List.mem_cons] at h
        rcases h with rfl | h
        · exact Or.inr (Or.inl rfl)
        · exact secondPass_states rs _ _ hrs' e h
      | none =>
        rw [hf] at h
        simp only [List.mem_cons] at h
        rcases h with rfl | h
        · exact Or.inr (Or.inr rfl)
        · exact secondPass_states rs _ _ hrs' e h
    · simp only [secondPass, if_neg ha, List.mem_cons] at h
      rcases h with rfl | h
      · rcases hrs e (List.mem_cons_self _ _) with hc | hc
        · exact Or.inl hc
        · exact Or.inr (Or.inr hc)
      · exact secondPass_states rs _ _ hrs' e h

/-- Replacing one entry by the sentinel never increases the tally of a
non-sentinel letter. -/
lemma count_set_star_le (s : String) (hs : s ≠ "*") (l : List String) :
    ∀ (i : Nat), (l.set i "*").count s ≤ l.count s := by
  have hstar : (("*" : String) == s) = false := by
    simpa using fun hc => hs hc.symm
  induction l with
  | nil => intro i; exact Nat.le_refl _
  | cons a l ih =>
    intro i
    cases i with
    | zero =>
      rw [List.set_cons_zero, List.count_cons, List.count_cons, hstar]
      simp only [Bool.false_eq_true, if_false]
      split <;> omega
    | succ i =>
      rw [List.set_cons_succ, List.count_cons, List.count_cons]
      have := ih i
      omega

/-- Replacing an entry that holds the letter s by the sentinel decreases the
tally of s by one. -/
lemma count_set_star_succ (s : String) (hs : s ≠ "*") (l : List String) :
    ∀ (i : Nat), l[i]? = some s →
      (l.set i "*").count s + 1 ≤ l.count s := by
  have hstar : (("*" : String) == s) = false := by
    simpa using fun hc => hs hc.symm
  induction l with
  | nil => intro i h; simp at h
  | cons a l ih =>
    intro i h
    cases i with
    | zero =>
      simp only [List.getElem?_cons_zero, Option.some.injEq] at h
      subst h
      rw [List.set_cons_zero, List.count_cons, List.count_cons, hstar]
      simp
    | succ i =>
      simp only [List.getElem?_cons_succ] at h
      rw [List.set_cons_succ, List.count_cons, List.count_cons]
      have := ih i h
      omega

/-- The Present cells the second pass creates are covered by the surviving
target letters: at most count-of-s of them can carry the letter s. -/
lemma secondPass_present_le (s : String) (hs : s ≠ "*") (rs : List GuessedLetter) :
    ∀ (ts : List String) (kb : Keyboard),
    (∀ x ∈ rs, x.state = LetterState.CORRECT ∨ x.state = LetterState.ABSENT) →
    presentCount s (secondPass rs ts kb).1 ≤ ts.count s := by
  have hpp : (LetterState.PRESENT == LetterState.PRESENT) = true := rfl
  have hap : (LetterState.ABSENT == LetterState.PRESENT) = false := rfl
  have hcp : (LetterState.CORRECT == LetterState.PRESENT) = false := rfl
  induction rs with
  | nil =>
    intro ts kb _
    simp [secondPass, presentCount]
  | cons r rs ih =>
    intro ts kb hrs
    have hrs' : ∀ x ∈ rs, x.state = LetterState.CORRECT ∨ x.state = LetterState.ABSENT :=
      fun x hx => hrs x (List.mem_cons_of_mem _ hx)
    unfold presentCount
    by_cases ha : r.state = LetterState.ABSENT
    · simp only [secondPass, if_pos ha]
      cases hf : ts.findIdx? (fun t => t == r.letter) with
      | some idx =>
        obtain ⟨hlt, hp, -⟩ := List.findIdx?_eq_some_iff_getElem.mp hf
        have hts : ts[idx]? = some r.letter := by
          rw [List.getElem?_eq_getElem hlt]
          exact congrArg some (by simpa using hp)
        rw [List.countP_cons]
        have ihs := ih (ts.set idx "*")
          (if kbGet kb r.letter = some LetterState.CORRECT then kb
           else kbSet kb r.letter LetterState.PRESENT) hrs'
        unfold presentCount at ihs
        by_cases hls : r.letter = s
        · have h2 := count_set_star_succ s hs ts idx (by rwa [hls] at hts)
          have hbt : (r.letter == s) = true := by simpa using hls
          simp only [hbt, hpp, Bool.and_self, if_pos]
          omega
        · have h2 := count_set_star_le s hs ts idx
          have hbf : (r.letter == s) = false := by simpa using hls
          simp only [hbf, Bool.false_and, Bool.false_eq_true, if_false]
          omega
      | none =>
        rw [List.countP_cons]
        have ihs := ih ts
          (if kbHas kb r.letter then kb else kbSet kb r.letter LetterState.ABSENT) hrs'
        unfold presentCount at ihs
        simp only [hap, Bool.and_false, Bool.false_eq_true, if_false]
        omega
    · simp only [secondPass, if_neg ha]
      rw [List.countP_cons]
      have ihs := ih ts kb hrs'
      unfold presentCount at ihs
      rcases hrs r (List.mem_cons_self _ _) with hc | hc
      · simp only [hc, hcp, Bool.and_false, Bool.false_eq_true, if_false]
        omega
      · exact absurd hc ha

/-- The scored row does not depend on the keyboard threaded through the first
pass. -/
lemma firstPass_indep : ∀ (gs ts : List String) (kb : Keyboard),
    (firstPass gs ts kb).1 = (firstPass gs ts []).1 ∧
      (firstPass gs ts kb).2.1 = (firstPass gs ts []).2.1
  | [], ts, kb => by cases ts <;> exact ⟨rfl, rfl⟩
  | g :: gs, [], kb => ⟨rfl, rfl⟩
  | g :: gs, t :: ts, kb => by
    by_cases hg : g = t
    · simp only [firstPass, if_pos hg]
      have h1 := firstPass_indep gs ts (kbSet kb g LetterState.CORRECT)
      have h2 := firstPass_indep gs ts (kbSet [] g LetterState.CORRECT)
      exact ⟨by rw [h1.1, h2.1], by rw [h1.2, h2.2]⟩
    · simp only [firstPass, if_neg hg]
      have h1 := firstPass_indep gs ts kb
      exact ⟨by rw [h1.1], by rw [h1.2]⟩

/-- The scored row does not depend on the keyboard threaded through the
second pass. -/
lemma secondPass_indep : ∀ (rs : List GuessedLetter) (ts : List String) (kb : Keyboard),
    (secondPass rs ts kb).1 = (secondPass rs ts []).1
  | [], ts, kb => rfl
  | r :: rs, ts, kb => by
    by_cases ha : r.state = LetterState.ABSENT
    · simp only [secondPass, if_pos ha]
      cases hf : ts.findIdx? (fun t => t == r.letter) with
      | some idx =>
        have h1 := secondPass_indep rs (ts.set idx "*")
          (if kbGet kb r.letter = some LetterState.CORRECT then kb
           else kbSet kb r.letter LetterState.PRESENT)
        have h2 := secondPass_indep rs (ts.set idx "*")
          (if kbGet [] r.letter = some LetterState.CORRECT then []
           else kbSet [] r.letter LetterState.PRESENT)
        simp only [h1, h2]
      | none =>
        have h1 := secondPass_indep rs ts
          (if kbHas kb r.letter then kb else kbSet kb r.letter LetterState.ABSENT)
        have h2 := secondPass_indep rs ts
          (if kbHas [] r.letter then [] else kbSet [] r.letter LetterState.ABSENT)
        simp only [h1, h2]
    · simp only [secondPass, if_neg ha]
      rw [secondPass_indep rs ts kb]

/-- Singleton strings compare like their characters. -/
lemma singleton_beq (a b : Char) :
    (String.singleton a == String.singleton b) = (a == b) := by
  by_cases h : a = b
  · simp [h]
  · have hne : String.singleton a ≠ String.singleton b := by
      intro hc
      exact h (by simpa using congrArg String.data hc)
    simp [h, hne]

/-- Unfolding of scoreGuess into the two passes. -/
lemma scoreGuess_eq (guess target : List Char) :
    scoreGuess guess target =
      (secondPass
        (firstPass (guess.map String.singleton) (target.map String.singleton) []).1
        (firstPass (guess.map String.singleton) (target.map String.singleton) []).2.1
        (firstPass (guess.map String.singleton) (target.map String.singleton) []).2.2).1 :=
  rfl

/-- The Correct-or-Present tally of a row is bounded by the occurrences of
the letter among the cells. -/
lemma cpCount_le_letters (s : String) (r : List GuessedLetter) :
    cpCount s r ≤ (r.map (fun e => e.letter)).count s := by
  rw [List.count_eq_countP, List.countP_map]
  unfold cpCount
  apply List.countP_mono_left
  intro e _ h
  simp only [Bool.and_eq_true] at h
  exact h.1

/-- The row submitGuess stores is the two-pass score of the guess against the
target word; the keyboard bookkeeping threaded through the passes does not
influence it. -/
lemma submitGuess_row (game : WordleGame) (guess : List Char) :
    (submitGuess game guess).guesses =
      game.guesses.set game.currentRow (scoreGuess guess game.targetWord) := by
  simp only [submitGuess, scoreGuess_eq]
  have h1 := firstPass_indep (guess.map String.singleton)
    (game.targetWord.map String.singleton) game.keyboardState
  rw [h1.1, h1.2]
  have h2 := secondPass_indep
    (firstPass (guess.map String.singleton) (game.targetWord.map String.singleton) []).1
    (firstPass (guess.map String.singleton) (game.targetWord.map String.singleton) []).2.1
    (firstPass (guess.map String.singleton) (game.targetWord.map String.singleton)
      game.keyboardState).2.2
  have h3 := secondPass_indep
    (firstPass (guess.map String.singleton) (game.targetWord.map String.singleton) []).1
    (firstPass (guess.map String.singleton) (game.targetWord.map String.singleton) []).2.1
    (firstPass (guess.map String.singleton) (game.targetWord.map String.singleton) []).2.2
  rw [h2, h3]

/-- Claim C1: for a five-letter guess against a five-letter target, the
two-pass scoring of submitGuess marks a cell Correct exactly at the
positions where the guess letter equals the target letter; for every letter
(the sentinel aside) it marks at most min(occurrences in the guess,
occurrences in the target) cells Correct-or-Present; every remaining cell is
Absent (each scored cell is Correct, Present or Absent); the row submitGuess
records is exactly this score; and for target SPEED and guess ERASE the
guessed E cells and the S are Present while R and A are Absent. -/
theorem C1_two_pass_scoring (guess target : List Char)
    (hg : guess.length = 5) (ht : target.length = 5) :
    ((scoreGuess guess target).map (fun e => e.state == LetterState.CORRECT) =
      (guess.zip target).map (fun p => p.1 == p.2)) ∧
    (∀ s : String, s ≠ "*" →
      cpCount s (scoreGuess guess target) ≤
        min ((guess.map String.singleton).count s)
          ((target.map String.singleton).count s)) ∧
    (∀ e ∈ scoreGuess guess target,
      e.state = LetterState.CORRECT ∨ e.state = LetterState.PRESENT ∨
        e.state = LetterState.ABSENT) ∧
    (∀ game : WordleGame, game.targetWord = target →
      (submitGuess game guess).guesses =
        game.guesses.set game.currentRow (scoreGuess guess target)) ∧
    scoreGuess ['E', 'R', 'A', 'S', 'E'] ['S', 'P', 'E', 'E', 'D'] =
      [{ letter := "E", state := LetterState.PRESENT },
       { letter := "R", state := LetterState.ABSENT },
       { letter := "A", state := LetterState.ABSENT },
       { letter := "S", state := LetterState.PRESENT },
       { letter := "E", state := LetterState.PRESENT }] := by
  have hlen : (guess.map String.singleton).length =
      (target.map String.singleton).length := by
    simp [hg, ht]
  refine ⟨?_, ?_, ?_, ?_, by decide⟩
  · rw [scoreGuess_eq, secondPass_mask, firstPass_mask, List.zip_map, List.map_map]
    apply List.map_congr_left
    intro a _
    simp [singleton_beq]
  · intro s hs
    refine le_min ?_ ?_
    · have hle := cpCount_le_letters s (scoreGuess guess target)
      rw [scoreGuess_eq, secondPass_letters,
        firstPass_letters _ _ _ hlen] at hle
      rw [scoreGuess_eq]
      exact hle
    · rw [scoreGuess_eq, cpCount_split]
      have h1 := secondPass_correctCount s
        (firstPass (guess.map String.singleton) (target.map String.singleton) []).1
        (firstPass (guess.map String.singleton) (target.map String.singleton) []).2.1
        (firstPass (guess.map String.singleton) (target.map String.singleton) []).2.2
      have h2 := secondPass_present_le s hs
        (firstPass (guess.map String.singleton) (target.map String.singleton) []).1
        (firstPass (guess.map String.singleton) (target.map String.singleton) []).2.1
        (firstPass (guess.map String.singleton) (target.map String.singleton) []).2.2
        (fun x hx => firstPass_states _ _ _ x hx)
      have h3 := firstPass_count s hs (guess.map String.singleton)
        (target.map String.singleton) [] hlen
      omega
  · intro e he
    rw [scoreGuess_eq] at he
    exact secondPass_states _ _ _ (fun x hx => firstPass_states _ _ _ x hx) e he
  · intro game hgt
    rw [submitGuess_row, hgt]

/-- Witness for C1 at the duplicate-letter example of the spec. -/
theorem C1_two_pass_scoring_witness :
    scoreGuess ['E', 'R', 'A', 'S', 'E'] ['S', 'P', 'E', 'E', 'D'] =
      [{ letter := "E", state := LetterState.PRESENT },
       { letter := "R", state := LetterState.ABSENT },
       { letter := "A", state := LetterState.ABSENT },
       { letter := "S", state := LetterState.PRESENT },
       { letter := "E", state := LetterState.PRESENT }] :=
  (C1_two_pass_scoring ['E', 'R', 'A', 'S', 'E'] ['S', 'P', 'E', 'E', 'D']
    (by decide) (by decide)).2.2.2.2

/-- Uniform canvas geometry: h rows of w cells, as createCanvas produces and
all drawing primitives preserve. -/
def shapeOk (w h : Nat) (cv : List (List Bool)) : Prop :=
  cv.length = h ∧ ∀ row ∈ cv, row.length = w

/-- The canvas of createCanvas has uniform geometry. -/
lemma createCanvas_shape (w h : Nat) : shapeOk w h (createCanvas w h) := by
  constructor
  · simp [createCanvas]
  · intro row hrow
    simp only [createCanvas, List.mem_map] at hrow
    obtain ⟨-, -, rfl⟩ := hrow
    exact List.length_replicate _ _

/-- On a canvas with at least one row of uniform geometry the first row has
the canvas width (the source reads the width off the first row). -/
lemma headD_length {w h : Nat} {cv : List (List Bool)} (hs : shapeOk w h cv)
    (h1 : 1 ≤ h) : (cv.headD []).length = w := by
  obtain ⟨hlen, hrows⟩ := hs
  cases cv with
  | nil =>
    simp at hlen
    omega
  | cons r rest => exact hrows r (List.mem_cons_self _ _)

/-- drawPixel keeps the canvas geometry. -/
lemma drawPixel_shape {w h : Nat} {cv : List (List Bool)} (hs : shapeOk w h cv)
    (x y : Int) (v : Bool) : shapeOk w h (drawPixel cv x y v) := by
  obtain ⟨hlen, hrows⟩ := hs
  unfold drawPixel
  split
  · rename_i hcond
    refine ⟨by simp [hlen], ?_⟩
    intro row hrow
    rcases List.mem_or_eq_of_mem_set hrow with hmem | heq
    · exact hrows row hmem
    · subst heq
      rw [List.length_set]
      have hy : y.toNat < cv.length := by omega
      rw [List.getD_eq_getElem?_getD, List.getElem?_eq_getElem hy]
      exact hrows _ (List.getElem_mem hy)
  · exact ⟨hlen, hrows⟩

/-- In-bounds effect of drawPixel: the addressed cell receives the value. -/
lemma getCell_drawPixel_self {w h : Nat} {cv : List (List Bool)} (hs : shapeOk w h cv)
    {x y : Int} (hx0 : 0 ≤ x) (hxw : x < (w : Int)) (hy0 : 0 ≤ y) (hyh : y < (h : Int))
    (v : Bool) : getCell (drawPixel cv x y v) x.toNat y.toNat = v := by
  have h1 : 1 ≤ h := by omega
  have hhead : ((cv.headD []).length : Int) = (w : Int) := by
    rw [headD_length hs h1]
  obtain ⟨hlen, hrows⟩ := hs
  have hy : y.toNat < cv.length := by rw [hlen]; omega
  unfold drawPixel
  rw [if_pos (by rw [hhead, hlen]; exact ⟨hy0, by omega, hx0, hxw⟩)]
  have hrowlen : ((cv[y.toNat]?).getD []).length = w := by
    rw [List.getElem?_eq_getElem hy]
    exact hrows _ (List.getElem_mem hy)
  simp only [getCell, List.getD_eq_getElem?_getD]
  rw [List.getElem?_set_self hy, Option.getD_some,
    List.getElem?_set_self (by rw [hrowlen]; omega), Option.getD_some]

/-- drawPixel leaves every other cell alone. -/
lemma getCell_drawPixel_other (cv : List (List Bool)) (x y : Int) (v : Bool)
    (i j : Nat) (hne : ¬(i = x.toNat ∧ j = y.toNat)) :
    getCell (drawPixel cv x y v) i j = getCell cv i j := by
  unfold drawPixel
  split
  · by_cases hj : j = y.toNat
    · have hi : i ≠ x.toNat := fun hc => hne ⟨hc, hj⟩
      by_cases hylt : y.toNat < cv.length
      · simp only [getCell, List.getD_eq_getElem?_getD, hj]
        rw [List.getElem?_set_self hylt, Option.getD_some,
          List.getElem?_set_ne (fun hc => hi hc.symm)]
      · rw [List.set_eq_of_length_le (by omega)]
    · simp only [getCell, List.getD_eq_getElem?_getD]
      rw [List.getElem?_set_ne (fun hc => hj hc.symm)]
  · rfl

/-- Claim C8: on a uniform canvas with at least one row, drawPixel is a
silent no-op outside the bounds (never raising and never wrapping negative
coordinates), and inside the bounds it writes exactly the addressed cell,
leaving every other cell unchanged. -/
theorem C8_drawPixel_bounds (w h : Nat) (cv : List (List Bool)) (x y : Int)
    (v : Bool) (hlen : cv.length = h) (hrows : ∀ row ∈ cv, row.length = w)
    (h1 : 1 ≤ h) :
    (¬(0 ≤ x ∧ x < (w : Int) ∧ 0 ≤ y ∧ y < (h : Int)) → drawPixel cv x y v = cv) ∧
    ((0 ≤ x ∧ x < (w : Int) ∧ 0 ≤ y ∧ y < (h : Int)) →
      getCell (drawPixel cv x y v) x.toNat y.toNat = v ∧
      ∀ i j : Nat, ¬(i = x.toNat ∧ j = y.toNat) →
        getCell (drawPixel cv x y v) i j = getCell cv i j) := by
  have hs : shapeOk w h cv := ⟨hlen, hrows⟩
  constructor
  · intro hout
    unfold drawPixel
    rw [if_neg]
    intro hcond
    apply hout
    rw [headD_length hs h1, hlen] at hcond
    exact ⟨hcond.2.2.1, hcond.2.2.2, hcond.1, hcond.2.1⟩
  · intro hin
    exact ⟨getCell_drawPixel_self hs hin.1 hin.2.1 hin.2.2.1 hin.2.2.2 v,
      fun i j hne => getCell_drawPixel_other cv x y v i j hne⟩

/-- Witness for C8: a write far right of a 3 by 2 canvas changes nothing. -/
theorem C8_drawPixel_bounds_witness :
    drawPixel (createCanvas 3 2) 5 0 true = createCanvas 3 2 :=
  (C8_drawPixel_bounds 3 2 (createCanvas 3 2) 5 0 true (by decide) (by decide)
    (by decide)).1 (by decide)

/-- Counterexample to claim C9 as stated: an outlined rectangle of width 0
and height 2 still draws its left and right one-pixel edges, so the canvas
changes. -/
theorem C9_degenerate_rect_counterexample :
    ¬ (drawRect (createCanvas 5 5) 2 2 0 2 false true = createCanvas 5 5) := by
  decide

/-- Every fold whose step returns the accumulator unchanged is the
identity. -/
lemma foldl_const {α β : Type} (l : List β) (a : α) :
    l.foldl (fun acc _ => acc) a = a := by
  induction l generalizing a with
  | nil => rfl
  | cons b l ih => exact ih a

/-- Claim C9 as amended: a filled rectangle with non-positive width or
height draws nothing, and an outlined rectangle draws nothing when both the
width and the height are non-positive; an outlined rectangle with exactly
one non-positive extent still draws a degenerate pair of edges (see the
counterexample). -/
theorem C9_degenerate_rect (cv : List (List Bool)) (x y w h : Int) (v : Bool) :
    ((w ≤ 0 ∨ h ≤ 0) → drawRect cv x y w h true v = cv) ∧
    (w ≤ 0 → h ≤ 0 → drawRect cv x y w h false v = cv) := by
  constructor
  · intro hwh
    unfold drawRect
    rw [if_pos rfl]
    rcases hwh with hw | hh
    · have hw0 : w.toNat = 0 := by omega
      rw [hw0, List.range_zero]
      simp only [List.foldl_nil]
      exact foldl_const _ _
    · have hh0 : h.toNat = 0 := by omega
      rw [hh0, List.range_zero, List.foldl_nil]
  · intro hw hh
    have hw0 : w.toNat = 0 := by omega
    have hh0 : h.toNat = 0 := by omega
    unfold drawRect
    rw [if_neg (by simp), hw0, hh0, List.range_zero]
    simp only [List.foldl_nil]

/-- Witness for C9: degenerate filled and outlined rectangles on a 3 by 3
canvas. -/
theorem C9_degenerate_rect_witness :
    drawRect (createCanvas 3 3) 1 1 0 2 true true = createCanvas 3 3 ∧
    drawRect (createCanvas 3 3) 1 1 0 (-2) false true = createCanvas 3 3 :=
  ⟨(C9_degenerate_rect (createCanvas 3 3) 1 1 0 2 true).1 (Or.inl (by decide)),
   (C9_degenerate_rect (createCanvas 3 3) 1 1 0 (-2) false).2 (by decide) (by decide)⟩

/-- Counterexample to claim C10 as stated: the Bresenham loop is not
symmetric in the direction of the line; between (0,0) and (4,1) the forward
direction lights the cell (2,0) while the reverse direction lights (2,1). -/
theorem C10_symmetry_counterexample :
    ¬ (drawLine (createCanvas 5 2) 0 0 4 1 true =
        drawLine (createCanvas 5 2) 4 1 0 0 true) := by
  decide

/-- drawPixel either leaves a cell alone or writes the drawing colour into
it. -/
lemma getCell_drawPixel_cases (cv : List (List Bool)) (x y : Int) (v : Bool)
    (i j : Nat) :
    getCell (drawPixel cv x y v) i j = getCell cv i j ∨
      getCell (drawPixel cv x y v) i j = v := by
  by_cases hij : i = x.toNat ∧ j = y.toNat
  · obtain ⟨hi, hj⟩ := hij
    subst hi
    subst hj
    unfold drawPixel
    split
    · rename_i hcond
      obtain ⟨hy0, hylen, hx0, hxlen⟩ := hcond
      have hy : y.toNat < cv.length := by omega
      by_cases hx : x.toNat < ((cv[y.toNat]?).getD []).length
      · right
        simp only [getCell, List.getD_eq_getElem?_getD]
        rw [List.getElem?_set_self hy, Option.getD_some,
          List.getElem?_set_self hx, Option.getD_some]
      · left
        simp only [getCell, List.getD_eq_getElem?_getD]
        rw [List.getElem?_set_self hy, Option.getD_some,
          List.set_eq_of_length_le (Nat.le_of_not_lt hx)]
    · left
      rfl
  · left
    exact getCell_drawPixel_other cv x y v i j hij

/-- A cell already holding the drawing colour keeps it through the Bresenham
loop. -/
lemma drawLineAux_pres (color : Bool) (x2 y2 dx dy sx sy : Int) :
    ∀ (fuel : Nat) (cv : List (List Bool)) (x y err : Int) (i j : Nat),
    getCell cv i j = color →
    getCell (drawLineAux color x2 y2 dx dy sx sy fuel cv x y err) i j = color := by
  intro fuel
  induction fuel with
  | zero => intro cv x y err i j hc; exact hc
  | succ fuel ih =>
    intro cv x y err i j hc
    have hc1 : getCell (drawPixel cv x y color) i j = color := by
      rcases getCell_drawPixel_cases cv x y color i j with hcase | hcase
      · rw [hcase]; exact hc
      · exact hcase
    simp only [drawLineAux]
    split
    · exact hc1
    · exact ih _ _ _ _ _ _ hc1

/-- The Bresenham loop reaches and plots the second endpoint: from any loop
state consistent with the error-term invariant and with enough fuel for the
remaining steps, the final canvas holds the drawing colour at the second
endpoint.  The counters a and b are the remaining x and y steps. -/
lemma drawLineAux_reach (color : Bool) (w h : Nat) (x2 y2 dx dy sx sy : Int)
    (hdx : 0 ≤ dx) (hdy : 0 ≤ dy)
    (hx2 : 0 ≤ x2) (hx2w : x2 < (w : Int)) (hy2 : 0 ≤ y2) (hy2h : y2 < (h : Int)) :
    ∀ (fuel : Nat) (cv : List (List Bool)) (a b x y err : Int),
    shapeOk w h cv →
    0 ≤ a → a ≤ dx → 0 ≤ b → b ≤ dy →
    x = x2 - sx * a → y = y2 - sy * b →
    err = dx - dy + a * dy - b * dx →
    (a + b).toNat < fuel →
    getCell (drawLineAux color x2 y2 dx dy sx sy fuel cv x y err)
      x2.toNat y2.toNat = color := by
  intro fuel
  induction fuel with
  | zero =>
    intro cv a b x y err _ ha0 _ hb0 _ _ _ _ hfuel
    omega
  | succ fuel ih =>
    intro cv a b x y err hshape ha0 hadx hb0 hbdy hx hy herr hfuel
    simp only [drawLineAux]
    by_cases hend : x = x2 ∧ y = y2
    · rw [if_pos hend, hend.1, hend.2]
      exact getCell_drawPixel_self hshape hx2 hx2w hy2 hy2h color
    · rw [if_neg hend]

      have hnz : ¬(a = 0 ∧ b = 0) := by
        rintro ⟨rfl, rfl⟩
        exact hend ⟨by rw [hx]; ring, by rw [hy]; ring⟩
      have hshape1 : shapeOk w h (drawPixel cv x y color) :=
        drawPixel_shape hshape x y color
      have F1 : 2 * err > -dy → 1 ≤ a := by
        intro hcond
        by_contra hle
        have ha : a = 0 := by omega
        have hb : 1 ≤ b := by
          rcases Int.lt_or_le 0 b with hpos | hneg
          · omega
          · exact absurd ⟨ha, by omega⟩ hnz
        rw [herr, ha] at hcond
        have ht : 0 ≤ dx * (b - 1) := mul_nonneg hdx (by omega)
        nlinarith
      have F2 : 2 * err < dx → 1 ≤ b := by
        intro hcond
        by_contra hle
        have hb : b = 0 := by omega
        have ha : 1 ≤ a := by
          rcases Int.lt_or_le 0 a with hpos | hneg
          · omega
          · exact absurd ⟨by omega, hb⟩ hnz
        rw [herr, hb] at hcond
        have ht : 0 ≤ dy * (a - 1) := mul_nonneg hdy (by omega)
        nlinarith
      by_cases hxm : 2 * err > -dy <;> by_cases hym : 2 * err < dx
      · rw [if_pos hxm, if_pos hym, if_pos hym, if_pos hxm]
        have ha1 := F1 hxm
        have hb1 := F2 hym
        refine ih (drawPixel cv x y color) (a - 1) (b - 1) _ _ _ hshape1
          (by omega) (by omega) (by omega) (by omega)
          (by rw [hx]; ring) (by rw [hy]; ring) (by rw [herr]; ring) (by omega)
      · rw [if_pos hxm, if_neg hym, if_neg hym, if_pos hxm]
        have ha1 := F1 hxm
        refine ih (drawPixel cv x y color) (a - 1) b _ _ _ hshape1
          (by omega) (by omega) (by omega) (by omega)
          (by rw [hx]; ring) (by rw [hy]) (by rw [herr]; ring) (by omega)
      · rw [if_neg hxm, if_pos hym, if_pos hym, if_neg hxm]
        have hb1 := F2 hym
        refine ih (drawPixel cv x y color) a (b - 1) _ _ _ hshape1
          (by omega) (by omega) (by omega) (by omega)
          (by rw [hx]) (by rw [hy]; ring) (by rw [herr]; ring) (by omega)
      · exfalso
        have hdxdy : dx ≤ 2 * err ∧ 2 * err ≤ -dy := ⟨by omega, by omega⟩
        have : dx = 0 ∧ dy = 0 := by omega
        exact hnz ⟨by omega, by omega⟩

/-- Claim C10 as amended: drawLine always writes both endpoint cells (shown
here for endpoints inside a uniform canvas), and drawLine(0,0,4,0,true) sets
exactly the five pixels (0,0) through (4,0) and nothing else; the claimed
direction-symmetry of the written cell set does not hold in general (see the
counterexample with endpoints (0,0) and (4,1)). -/
theorem C10_line_endpoints (cv : List (List Bool)) (w h : Nat)
    (x1 y1 x2 y2 : Int) (v : Bool)
    (hlen : cv.length = h) (hrows : ∀ row ∈ cv, row.length = w)
    (h1x : 0 ≤ x1) (h1xw : x1 < (w : Int)) (h1y : 0 ≤ y1) (h1yh : y1 < (h : Int))
    (h2x : 0 ≤ x2) (h2xw : x2 < (w : Int)) (h2y : 0 ≤ y2) (h2yh : y2 < (h : Int)) :
    getCell (drawLine cv x1 y1 x2 y2 v) x1.toNat y1.toNat = v ∧
    getCell (drawLine cv x1 y1 x2 y2 v) x2.toNat y2.toNat = v ∧
    drawLine (createCanvas 6 3) 0 0 4 0 true =
      [[true, true, true, true, true, false],
       List.replicate 6 false, List.replicate 6 false] := by
  have hshape : shapeOk w h cv := ⟨hlen, hrows⟩
  have habsx : 0 ≤ |x2 - x1| := abs_nonneg _
  have habsy : 0 ≤ |y2 - y1| := abs_nonneg _
  have hfuel : (|x2 - x1| + |y2 - y1| + 1).toNat =
      (|x2 - x1| + |y2 - y1|).toNat + 1 := by omega
  refine ⟨?_, ?_, by decide⟩
  · simp only [drawLine]
    rw [hfuel]
    simp only [drawLineAux]
    have hc1 : getCell (drawPixel cv x1 y1 v) x1.toNat y1.toNat = v :=
      getCell_drawPixel_self hshape h1x h1xw h1y h1yh v
    split
    · exact hc1
    · exact drawLineAux_pres _ _ _ _ _ _ _ _ _ _ _ _ _ _ hc1
  · simp only [drawLine]
    have hsx1 : x1 = x2 - (if x1 < x2 then (1 : Int) else -1) * |x2 - x1| := by
      by_cases hc : x1 < x2
      · rw [if_pos hc, abs_of_nonneg (by omega : (0 : Int) ≤ x2 - x1)]
        ring
      · rw [if_neg hc, abs_of_nonpos (by omega : x2 - x1 ≤ 0)]
        ring
    have hsy1 : y1 = y2 - (if y1 < y2 then (1 : Int) else -1) * |y2 - y1| := by
      by_cases hc : y1 < y2
      · rw [if_pos hc, abs_of_nonneg (by omega : (0 : Int) ≤ y2 - y1)]
        ring
      · rw [if_neg hc, abs_of_nonpos (by omega : y2 - y1 ≤ 0)]
        ring
    exact drawLineAux_reach v w h x2 y2 (|x2 - x1|) (|y2 - y1|)
      (if x1 < x2 then 1 else -1) (if y1 < y2 then 1 else -1)
      habsx habsy h2x h2xw h2y h2yh
      ((|x2 - x1| + |y2 - y1| + 1).toNat) cv (|x2 - x1|) (|y2 - y1|) x1 y1
      (|x2 - x1| - |y2 - y1|) hshape habsx (le_refl _) habsy (le_refl _)
      hsx1 hsy1 (by ring) (by omega)

/-- Witness for C10: a diagonal on a 6 by 6 canvas lights both endpoints. -/
theorem C10_line_endpoints_witness :
    getCell (drawLine (createCanvas 6 6) 0 0 4 3 true) 0 0 = true ∧
    getCell (drawLine (createCanvas 6 6) 0 0 4 3 true) 4 3 = true :=
  ⟨(C10_line_endpoints (createCanvas 6 6) 6 6 0 0 4 3 true (by decide) (by decide)
      (by decide) (by decide) (by decide) (by decide) (by decide) (by decide)
      (by decide) (by decide)).1,
   (C10_line_endpoints (createCanvas 6 6) 6 6 0 0 4 3 true (by decide) (by decide)
      (by decide) (by decide) (by decide) (by decide) (by decide) (by decide)
      (by decide) (by decide)).2.1⟩

/-- Value view of the rowData accumulator of the packing loop: the bit
accepted at loop position k sits at binary position 7 - k. -/
def bitsByte : List Bool → Nat → Nat
  | [], _ => 0
  | b :: bs, k => (if b then 2 ^ (7 - k) else 0) + bitsByte bs (k + 1)

/-- Byte view of a pixel row: the row cut into blocks of eight pixels, each
block valued with the most significant bit first. -/
def chunkBytes (l : List Bool) : List Nat :=
  if h : l = [] then []
  else bitsByte (l.take 8) 0 :: chunkBytes (l.drop 8)
termination_by l.length
decreasing_by
  simp only [List.length_drop]
  have := List.length_pos.mpr h
  omega

/-- A partial byte value stays below the bits still to be filled. -/
lemma bitsByte_lt (bs : List Bool) : ∀ (k : Nat), k + bs.length ≤ 8 →
    bitsByte bs k < 2 ^ (8 - k) := by
  induction bs with
  | nil =>
    intro k _
    simp only [bitsByte]
    exact Nat.two_pow_pos _
  | cons b bs ih =>
    intro k hk
    simp only [bitsByte, List.length_cons] at *
    have h1 : bitsByte bs (k + 1) < 2 ^ (8 - (k + 1)) := ih (k + 1) (by omega)
    have h3 : 8 - (k + 1) = 7 - k := by omega
    have h2 : (2 : Nat) ^ (8 - k) = 2 * 2 ^ (7 - k) := by
      rw [show 8 - k = (7 - k) + 1 from by omega, pow_succ]
      ring
    rw [h3] at h1
    cases b <;> simp <;> omega

/-- Appending a bit to the accumulator adds its positional value. -/
lemma bitsByte_append (bs : List Bool) : ∀ (k : Nat) (b : Bool),
    bitsByte (bs ++ [b]) k =
      bitsByte bs k + (if b then 2 ^ (7 - (k + bs.length)) else 0) := by
  induction bs with
  | nil =>
    intro k b
    simp [bitsByte]
  | cons c bs ih =>
    intro k b
    simp only [List.cons_append, bitsByte, List.length_cons, List.append_eq]
    rw [ih (k + 1) b]
    have he : k + 1 + bs.length = k + (bs.length + 1) := by omega
    rw [he]
    omega

/-- All bits of the accumulator sit above the positions still to fill. -/
lemma bitsByte_dvd (bs : List Bool) : ∀ (k : Nat), k + bs.length ≤ 8 →
    2 ^ (8 - (k + bs.length)) ∣ bitsByte bs k := by
  induction bs with
  | nil =>
    intro k _
    simp [bitsByte]
  | cons b bs ih =>
    intro k hk
    simp only [bitsByte, List.length_cons]
    apply Nat.dvd_add
    · cases b
      · simp
      · simp only [if_true]
        apply pow_dvd_pow
        omega
    · have hd := ih (k + 1) (by simp at hk; omega)
      have heq : 8 - (k + 1 + bs.length) = 8 - (k + (bs.length + 1)) := by omega
      rw [heq] at hd
      exact hd

/-- Setting the next bit with a bitwise or is the same as adding its
positional value: the accumulator has no bit there yet. -/
lemma bitsByte_or_step (bits : List Bool) (h7 : bits.length ≤ 7) :
    bitsByte bits 0 ||| (1 <<< (7 - bits.length)) =
      bitsByte bits 0 + 2 ^ (7 - bits.length) := by
  obtain ⟨m, hm⟩ := bitsByte_dvd bits 0 (by omega)
  rw [Nat.zero_add] at hm
  have hlt : (2 : Nat) ^ (7 - bits.length) < 2 ^ (8 - bits.length) := by
    apply Nat.pow_lt_pow_right (by omega)
    omega
  rw [Nat.one_shiftLeft, hm, ← Nat.mul_add_lt_is_or hlt m]

/-- One step of the packing loop extends the accumulator by one bit. -/
lemma packRowAux_step (bits : List Bool) (b : Bool) (h7 : bits.length ≤ 7) :
    (if b then bitsByte bits 0 ||| (1 <<< (7 - bits.length)) else bitsByte bits 0) =
      bitsByte (bits ++ [b]) 0 := by
  cases b
  · simp [bitsByte_append]
  · simp only [if_true]
    rw [bitsByte_or_step bits h7, bitsByte_append]
    simp

/-- The packing loop, started with a partial accumulator, produces the byte
view of the whole row. -/
lemma packRowAux_eq (bs : List Bool) : ∀ (bits : List Bool), bits.length ≤ 7 →
    packRowAux bs (bitsByte bits 0) bits.length = chunkBytes (bits ++ bs) := by
  induction bs with
  | nil =>
    intro bits h7
    simp only [packRowAux, List.append_nil]
    cases bits with
    | nil =>
      rw [chunkBytes]
      simp
    | cons c bits2 =>
      rw [chunkBytes]
      rw [dif_neg (by simp)]
      rw [List.take_of_length_le (by simp at h7 ⊢; omega),
        List.drop_of_length_le (by simp at h7 ⊢; omega)]
      rw [chunkBytes]
      simp
  | cons b bs ih =>
    intro bits h7
    simp only [packRowAux]
    rw [packRowAux_step bits b h7]
    by_cases hk : bits.length + 1 = 8
    · have hbeq : (bits.length + 1 == 8) = true := by
        simp [hk]
      rw [hbeq]
      simp only [if_true]
      have hrec : packRowAux bs 0 0 = chunkBytes bs := by
        have h0 := ih [] (by simp)
        simpa [bitsByte] using h0
      have hl : bits ++ b :: bs = (bits ++ [b]) ++ bs := by
        simp
      have hlen8 : (bits ++ [b]).length = 8 := by
        simp
        omega
      rw [hl, chunkBytes, dif_neg (by simp), List.take_left' hlen8,
        List.drop_left' hlen8, hrec]
    · have hbeq : (bits.length + 1 == 8) = false := by
        simpa using hk
      rw [hbeq]
      simp only [Bool.false_eq_true, if_false]
      have hlen1 : bits.length + 1 = (bits ++ [b]).length := by
        simp
      rw [hlen1, ih (bits ++ [b])
        (by simp only [List.length_append, List.length_singleton]; omega)]
      have hl : (bits ++ [b]) ++ bs = bits ++ b :: bs := by
        simp
      rw [hl]

/-- The per-row packing loop computes the byte view of the row. -/
lemma packRow_eq (row : List Bool) : packRow row = chunkBytes row := by
  have h0 := packRowAux_eq row [] (by simp)
  simpa [packRow, bitsByte] using h0

/-- Bit read-back of the accumulator: binary position 7 - m holds the bit
accepted at loop position m. -/
lemma bitsByte_testBit (bs : List Bool) : ∀ (k m : Nat),
    k + bs.length ≤ 8 → k ≤ m → m < 8 →
    (bitsByte bs k).testBit (7 - m) = bs.getD (m - k) false := by
  induction bs with
  | nil =>
    intro k m _ _ _
    simp [bitsByte]
  | cons b bs ih =>
    intro k m hk hkm hm8
    have hlt : bitsByte bs (k + 1) < 2 ^ (7 - k) := by
      have hb := bitsByte_lt bs (k + 1) (by simp at hk; omega)
      rwa [show 8 - (k + 1) = 7 - k from by omega] at hb
    have hsplit : bitsByte (b :: bs) k =
        2 ^ (7 - k) * (if b then 1 else 0) + bitsByte bs (k + 1) := by
      simp only [bitsByte]
      cases b <;> simp
    rw [hsplit, Nat.testBit_mul_pow_two_add _ hlt]
    by_cases hmk : m = k
    · subst hmk
      rw [if_neg (by omega), show 7 - m - (7 - m) = 0 from by omega]
      cases b <;> simp
    · have hgt : k < m := by omega
      rw [if_pos (by omega), ih (k + 1) m (by simp at hk; omega) (by omega) hm8]
      obtain ⟨n, hn⟩ : ∃ n, m - k = n + 1 := ⟨m - k - 1, by omega⟩
      rw [hn, List.getD_cons_succ, show m - (k + 1) = n from by omega]

/-- Reading inside the taken-prefix is reading the original list. -/
lemma getD_take_bool (l : List Bool) (n i : Nat) (h : i < n) :
    (l.take n).getD i false = l.getD i false := by
  simp only [List.getD_eq_getElem?_getD, List.getElem?_take_of_lt h]

/-- Reading past a drop is reading the original list further right. -/
lemma getD_drop_bool (l : List Bool) : ∀ (n i : Nat),
    (l.drop n).getD i false = l.getD (n + i) false := by
  induction l with
  | nil =>
    intro n i
    simp
  | cons a l ih =>
    intro n i
    cases n with
    | zero => simp
    | succ n =>
      simp only [List.drop_succ_cons]
      rw [ih n i, show n + 1 + i = (n + i) + 1 from by omega, List.getD_cons_succ]

/-- The byte view has one byte per eight pixels, the last byte partial. -/
lemma chunkBytes_length (l : List Bool) :
    (chunkBytes l).length = (l.length + 7) / 8 := by
  induction l using chunkBytes.induct with
  | case1 =>
    rw [chunkBytes]
    simp
  | case2 l hne ih =>
    rw [chunkBytes, dif_neg hne]
    simp only [List.length_cons]
    rw [ih]
    simp only [List.length_drop]
    have := List.length_pos.mpr hne
    omega

/-- Byte j of the byte view holds pixel 8 j + m at binary position 7 - m. -/
lemma chunkBytes_testBit (j : Nat) : ∀ (l : List Bool) (m : Nat),
    m < 8 → 8 * j + m < l.length →
    ((chunkBytes l).getD j 0).testBit (7 - m) = l.getD (8 * j + m) false := by
  induction j with
  | zero =>
    intro l m hm hlen
    have hne : l ≠ [] := by
      intro hc
      subst hc
      simp at hlen
    rw [chunkBytes, dif_neg hne, List.getD_cons_zero,
      bitsByte_testBit (l.take 8) 0 m
        (by simp only [List.length_take, Nat.zero_add]; omega) (by omega) hm,
      Nat.sub_zero, getD_take_bool l 8 m hm,
      show 8 * 0 + m = m from by omega]
  | succ j ih =>
    intro l m hm hlen
    have hne : l ≠ [] := by
      intro hc
      subst hc
      simp at hlen
    rw [chunkBytes, dif_neg hne, List.getD_cons_succ,
      ih (l.drop 8) m hm (by simp only [List.length_drop]; omega),
      getD_drop_bool, show 8 + (8 * j + m) = 8 * (j + 1) + m from by omega]

/-- Length of a concatenation of uniform blocks. -/
lemma catRows_length (P : Nat) : ∀ (blocks : List (List Nat)),
    (∀ bl ∈ blocks, bl.length = P) →
    (catRows blocks).length = blocks.length * P := by
  intro blocks
  induction blocks with
  | nil => intro _; simp [catRows]
  | cons bl bls ih =>
    intro hb
    simp only [catRows, List.length_append, List.length_cons]
    rw [ih (fun x hx => hb x (List.mem_cons_of_mem _ hx)),
      hb bl (List.mem_cons_self _ _)]
    ring

/-- Indexing into a concatenation of uniform blocks. -/
lemma catRows_getD (P : Nat) : ∀ (blocks : List (List Nat)) (m i : Nat),
    (∀ bl ∈ blocks, bl.length = P) → i < P →
    (catRows blocks).getD (m * P + i) 0 = (blocks.getD m []).getD i 0 := by
  intro blocks
  induction blocks with
  | nil =>
    intro m i _ _
    simp [catRows]
  | cons bl bls ih =>
    intro m i hb hi
    have hbl : bl.length = P := hb bl (List.mem_cons_self _ _)
    simp only [catRows]
    cases m with
    | zero =>
      simp only [Nat.zero_mul, Nat.zero_add, List.getD_cons_zero]
      rw [List.getD_eq_getElem?_getD, List.getElem?_append_left (by omega),
        ← List.getD_eq_getElem?_getD]
    | succ m =>
      simp only [List.getD_cons_succ]
      have key : (m + 1) * P + i = bl.length + (m * P + i) := by
        rw [hbl]
        ring
      rw [List.getD_eq_getElem?_getD, key,
        List.getElem?_append_right (Nat.le_add_right _ _),
        Nat.add_sub_cancel_left, ← List.getD_eq_getElem?_getD,
        ih m i (fun x hx => hb x (List.mem_cons_of_mem _ hx)) hi]

/-- The unpadded row size is at most the padded row size. -/
lemma rowSize_le_padded (w : Nat) : rowSizeOf w ≤ paddedRowSizeOf w := by
  simp only [paddedRowSizeOf, rowSizeOf]
  omega

/-- One padded pixel-row block has the padded row size. -/
lemma block_length (w : Nat) (row : List Bool) (hrow : row.length = w) :
    (packRow row ++ List.replicate (paddedRowSizeOf w - rowSizeOf w) 0).length =
      paddedRowSizeOf w := by
  rw [List.length_append, packRow_eq, chunkBytes_length, hrow,
    List.length_replicate]
  have hle := rowSize_le_padded w
  unfold rowSizeOf at *
  omega

/-- The header before the pixel data spans 62 bytes. -/
lemma bmpHeader_length (w hh : Nat) : (bmpHeader w hh).length = 62 := by
  simp [bmpHeader, fileHeaderBytes, infoHeaderBytes, colorTableBytes, u32le, u16le]

/-- Reading the buffer from offset 62 reads the pixel data. -/
lemma create1BitBMP_getD_pixel (w hh : Nat) (cv : List (List Bool)) (k : Nat) :
    (create1BitBMP w hh cv).getD (62 + k) 0 = (pixelBytes w hh cv).getD k 0 := by
  unfold create1BitBMP
  rw [List.getD_eq_getElem?_getD,
    List.getElem?_append_right (by rw [bmpHeader_length]; omega),
    bmpHeader_length, show 62 + k - 62 = k from by omega,
    ← List.getD_eq_getElem?_getD]

/-- Every block of the pixel data has the padded row size. -/
lemma pixelBytes_block_lengths (w hh : Nat) (cv : List (List Bool))
    (hlen : cv.length = hh) (hrows : ∀ row ∈ cv, row.length = w) :
    ∀ bl ∈ ((List.range hh).reverse).map
      (fun yy => packRow (cv.getD yy []) ++
        List.replicate (paddedRowSizeOf w - rowSizeOf w) 0),
      bl.length = paddedRowSizeOf w := by
  intro bl hbl
  simp only [List.mem_map, List.mem_reverse, List.mem_range] at hbl
  obtain ⟨yy, hyy, rfl⟩ := hbl
  apply block_length
  have hyy' : yy < cv.length := by omega
  rw [List.getD_eq_getElem?_getD, List.getElem?_eq_getElem hyy']
  exact hrows _ (List.getElem_mem hyy')

/-- Pixel-data block number hh - 1 - y is the padded packing of canvas
row y. -/
lemma pixelBytes_blocks (w hh : Nat) (cv : List (List Bool)) (y : Nat)
    (hy : y < hh) :
    ((((List.range hh).reverse).map
      (fun yy => packRow (cv.getD yy []) ++
        List.replicate (paddedRowSizeOf w - rowSizeOf w) 0)).getD (hh - 1 - y) [])
      = packRow (cv.getD y []) ++
        List.replicate (paddedRowSizeOf w - rowSizeOf w) 0 := by
  have hm : hh - 1 - y < (List.range hh).length := by
    simp only [List.length_range]
    omega
  rw [List.getD_eq_getElem?_getD, List.getElem?_map,
    List.getElem?_reverse (by simpa using hm),
    show (List.range hh).length - 1 - (hh - 1 - y) = y from by
      simp only [List.length_range]; omega,
    List.getElem?_eq_getElem (by simpa using hy), List.getElem_range]
  simp

/-- Length of the pixel data. -/
lemma pixelBytes_length (w hh : Nat) (cv : List (List Bool))
    (hlen : cv.length = hh) (hrows : ∀ row ∈ cv, row.length = w) :
    (pixelBytes w hh cv).length = hh * paddedRowSizeOf w := by
  unfold pixelBytes
  rw [catRows_length (paddedRowSizeOf w) _
    (pixelBytes_block_lengths w hh cv hlen hrows)]
  simp

/-- Any entry of a zero replicate reads zero. -/
lemma getD_replicate_zero (n k : Nat) :
    (List.replicate n (0 : Nat)).getD k 0 = 0 := by
  rw [List.getD_eq_getElem?_getD, List.getElem?_replicate]
  split <;> rfl

/-- Claim C3: create1BitBMP produces exactly 14 + 40 + 8 + paddedRowSize *
height bytes, where paddedRowSize is ceil(ceil(width/8)/4)*4 as embodied by
paddedRowSizeOf; bytes 0 and 1 read BM; bytes 2 to 5 hold the total file
size little-endian; the pixel data starts at offset 62 with the canvas rows
bottom-up, eight pixels a byte with the most significant bit leftmost, so
the canvas cell (x, y) is set exactly when bit 7 - x mod 8 of the byte at
offset 62 + (height - 1 - y) * paddedRowSize + x / 8 is set; and each row
block is zero-padded from the unpadded row size up to the padded row
size. -/
theorem C3_bmp_layout (w h : Nat) (cv : List (List Bool))
    (hw : 1 ≤ w) (hh : 1 ≤ h) (hlen : cv.length = h)
    (hrows : ∀ row ∈ cv, row.length = w) :
    (create1BitBMP w h cv).length = 14 + 40 + 8 + paddedRowSizeOf w * h ∧
    (create1BitBMP w h cv).getD 0 0 = 66 ∧
    (create1BitBMP w h cv).getD 1 0 = 77 ∧
    (create1BitBMP w h cv).getD 2 0 =
      (14 + 40 + 8 + paddedRowSizeOf w * h) % 256 ∧
    (create1BitBMP w h cv).getD 3 0 =
      (14 + 40 + 8 + paddedRowSizeOf w * h) / 256 % 256 ∧
    (create1BitBMP w h cv).getD 4 0 =
      (14 + 40 + 8 + paddedRowSizeOf w * h) / 65536 % 256 ∧
    (create1BitBMP w h cv).getD 5 0 =
      (14 + 40 + 8 + paddedRowSizeOf w * h) / 16777216 % 256 ∧
    (∀ x y : Nat, x < w → y < h →
      ((create1BitBMP w h cv).getD
          (62 + (h - 1 - y) * paddedRowSizeOf w + x / 8) 0).testBit (7 - x % 8) =
        (cv.getD y []).getD x false) ∧
    (∀ y j : Nat, y < h → rowSizeOf w ≤ j → j < paddedRowSizeOf w →
      (create1BitBMP w h cv).getD
        (62 + (h - 1 - y) * paddedRowSizeOf w + j) 0 = 0) := by
  have hblocks := pixelBytes_block_lengths w h cv hlen hrows
  refine ⟨?_, rfl, rfl, rfl, rfl, rfl, rfl, ?_, ?_⟩
  · unfold create1BitBMP
    rw [List.length_append, bmpHeader_length, pixelBytes_length w h cv hlen hrows]
    have hcomm := Nat.mul_comm h (paddedRowSizeOf w)
    omega
  · intro x y hx hy
    have hrowlen : (cv.getD y []).length = w := by
      have hy' : y < cv.length := by omega
      rw [List.getD_eq_getElem?_getD, List.getElem?_eq_getElem hy']
      exact hrows _ (List.getElem_mem hy')
    have hidiv : x / 8 < paddedRowSizeOf w := by
      have h1 : x / 8 < rowSizeOf w := by
        unfold rowSizeOf
        omega
      exact Nat.lt_of_lt_of_le h1 (rowSize_le_padded w)
    rw [Nat.add_assoc, create1BitBMP_getD_pixel]
    unfold pixelBytes
    rw [catRows_getD (paddedRowSizeOf w) _ (h - 1 - y) (x / 8) hblocks hidiv,
      pixelBytes_blocks w h cv y hy]
    have hpacklen : (packRow (cv.getD y [])).length = rowSizeOf w := by
      rw [packRow_eq, chunkBytes_length, hrowlen]
      rfl
    rw [List.getD_eq_getElem?_getD,
      List.getElem?_append_left (by rw [hpacklen]; unfold rowSizeOf; omega),
      ← List.getD_eq_getElem?_getD, packRow_eq,
      chunkBytes_testBit (x / 8) (cv.getD y []) (x % 8) (Nat.mod_lt x (by omega))
        (by rw [hrowlen, Nat.div_add_mod]; omega),
      Nat.div_add_mod]
  · intro y j hy hj1 hj2
    rw [Nat.add_assoc, create1BitBMP_getD_pixel]
    unfold pixelBytes
    rw [catRows_getD (paddedRowSizeOf w) _ (h - 1 - y) j hblocks hj2,
      pixelBytes_blocks w h cv y hy]
    have hpacklen : (packRow (cv.getD y [])).length = rowSizeOf w := by
      have hrowlen : (cv.getD y []).length = w := by
        have hy' : y < cv.length := by omega
        rw [List.getD_eq_getElem?_getD, List.getElem?_eq_getElem hy']
        exact hrows _ (List.getElem_mem hy')
      rw [packRow_eq, chunkBytes_length, hrowlen]
      rfl
    rw [List.getD_eq_getElem?_getD,
      List.getElem?_append_right (by rw [hpacklen]; omega),
      ← List.getD_eq_getElem?_getD, hpacklen, getD_replicate_zero]

/-- Witness for C3 on a 2 by 1 canvas with one set pixel. -/
theorem C3_bmp_layout_witness :
    (create1BitBMP 2 1 [[true, false]]).length =
      14 + 40 + 8 + paddedRowSizeOf 2 * 1 :=
  (C3_bmp_layout 2 1 [[true, false]] (by decide) (by decide) (by decide)
    (by decide)).1

end Wordle
